import Mathlib

set_option maxRecDepth 10000

/-!
Shallow embedding of main.py, a directory-watching service that rewrites
each new image so its encoded size fits a configured byte budget.  The
encoder, images and the filesystem are modelled abstractly: an encoded
buffer is a list of bytes, its size is the list length (matching
buffer.tell() after a sequential save), and PIL operations are fields of
an abstract Codec record.  Machine integers are Nat and Int.
-/

/-- State of the while-loop in find_optimal_quality (main.py lines 59-76):
the variables low, high, best_quality, best_image_bytes.  The extra field
queries records, in order, every quality value passed to the encoder, so
that theorems can speak about the number and range of encode operations. -/
structure FQState where
  low : Nat
  high : Nat
  best_quality : Int
  best_image_bytes : Option (List Nat)
  queries : List Nat
  deriving DecidableEq

/-- The while-loop of find_optimal_quality (main.py lines 64-74), with
explicit fuel.  enc models img.save at a given quality (the format and
the optimize flag are fixed per invocation, so they are folded into enc);
the comparison buffer.tell() <= MAX_SIZE_BYTES becomes a comparison of
the buffer length against the Int budget. -/
def fqLoop (enc : Nat → List Nat) (budget : Int) : Nat → FQState → FQState
  | 0, s => s
  | fuel + 1, s =>
    if s.low ≤ s.high then
      let mid := (s.low + s.high) / 2
      let buffer := enc mid
      if (buffer.length : Int) ≤ budget then
        fqLoop enc budget fuel
          { low := mid + 1, high := s.high, best_quality := (mid : Int),
            best_image_bytes := some buffer, queries := s.queries ++ [mid] }
      else
        fqLoop enc budget fuel
          { low := s.low, high := mid - 1, best_quality := s.best_quality,
            best_image_bytes := s.best_image_bytes, queries := s.queries ++ [mid] }
    else s

/-- Initial loop state of find_optimal_quality: low = 1, high = 95,
best_quality = -1, best_image_bytes = None. -/
def fqInit : FQState :=
  { low := 1, high := 95, best_quality := -1, best_image_bytes := none, queries := [] }

/-- find_optimal_quality (main.py lines 52-76).  95 units of fuel always
suffice: the interval [low, high] holds 95 values initially and loses at
least one value per iteration, so the loop exits by its own condition. -/
def find_optimal_quality (enc : Nat → List Nat) (budget : Int) :
    Int × Option (List Nat) :=
  let s := fqLoop enc budget 95 fqInit
  (s.best_quality, s.best_image_bytes)

/-- Invariant of the best_quality / best_image_bytes pair of the search
loop: either nothing fit yet (quality -1, no bytes), or the recorded
quality is in [1, 95] and the recorded bytes are the encoder output at
that quality and fit the budget. -/
def FQInv (enc : Nat → List Nat) (budget : Int) (s : FQState) : Prop :=
  (s.best_quality = -1 ∧ s.best_image_bytes = none) ∨
    (∃ m : Nat, s.best_quality = (m : Int) ∧ 1 ≤ m ∧ m ≤ 95 ∧
      s.best_image_bytes = some (enc m) ∧ ((enc m).length : Int) ≤ budget)

/-- Abstract interface to the PIL operations process_image uses: the
width, height and mode attributes, convert to single-channel grayscale,
save with default parameters, save at an explicit quality with
optimize=True, and LANCZOS resize. -/
structure Codec (Img : Type) where
  width : Img → Nat
  height : Img → Nat
  mode : Img → String
  convertL : Img → Img
  encodeDefault : Img → List Nat
  encodeQ : Img → Nat → List Nat
  resize : Img → Nat → Nat → Img

/-- Step 1 of process_image (main.py lines 90-93): convert to grayscale
unless the mode is already L. -/
def grayNormalize {Img : Type} (C : Codec Img) (img : Img) : Img :=
  if C.mode img ≠ "L" then C.convertL img else img

/-- Observable outcome of one process_image call.  Each constructor that
carries bytes corresponds to one open(image_path, wb)/write site in
main.py; cannotSatisfy is the break out of the resolution loop, after
which the function returns without writing.  outOfFuel is reachable only
when the fuel given to the resolution loop is too small. -/
inductive ProcResult where
  | fastPath (bytes : List Nat)
  | qualityPath (q : Int) (bytes : Option (List Nat))
  | resizePath (w h : Nat) (q : Int) (bytes : Option (List Nat))
  | cannotSatisfy
  | outOfFuel
  deriving DecidableEq

/-- The bytes a process_image outcome writes to the watched file, if any. -/
def writtenBytes : ProcResult → Option (List Nat)
  | ProcResult.fastPath bytes => some bytes
  | ProcResult.qualityPath _ bytes => bytes
  | ProcResult.resizePath _ _ _ bytes => bytes
  | ProcResult.cannotSatisfy => none
  | ProcResult.outOfFuel => none

/-- Contents of the watched file after a process_image call, given its
contents before the call. -/
def diskAfter (orig : List Nat) (r : ProcResult) : List Nat :=
  match writtenBytes r with
  | some b => b
  | none => orig

/-- One resolution step (main.py lines 118-124): new_width and new_height
are int(dim * 0.9).  For every dimension a raster image can have, the
float product dim * 0.9 truncates to floor(9 * dim / 10), which is how
the step is written here. -/
def shrinkStep {Img : Type} (C : Codec Img) (img : Img) : Img :=
  C.resize img (9 * C.width img / 10) (9 * C.height img / 10)

/-- The image after k resolution-fallback steps. -/
def imgAt {Img : Type} (C : Codec Img) (img : Img) : Nat → Img
  | 0 => img
  | k + 1 => shrinkStep C (imgAt C img k)

/-- The resolution-fallback loop of process_image (main.py lines
117-131), with explicit fuel: shrink both dimensions, stop with failure
if either would fall below 10, otherwise resize, rerun the quality
search, and write as soon as a quality fits. -/
def resizeLoop {Img : Type} (C : Codec Img) (budget : Int) :
    Nat → Img → ProcResult
  | 0, _ => ProcResult.outOfFuel
  | fuel + 1, img =>
    let new_width := 9 * C.width img / 10
    let new_height := 9 * C.height img / 10
    if new_width < 10 ∨ new_height < 10 then ProcResult.cannotSatisfy
    else
      let img2 := C.resize img new_width new_height
      let r := find_optimal_quality (C.encodeQ img2) budget
      if r.1 ≠ -1 then ProcResult.resizePath new_width new_height r.1 r.2
      else resizeLoop C budget fuel img2

/-- Steps 2-4 of process_image (main.py lines 96-131), applied to the
already gray-normalized image: fast path at default encoder settings,
then the quality search at full resolution, then the resolution
fallback. -/
def processAfterGray {Img : Type} (C : Codec Img) (budget : Int)
    (fuel : Nat) (img : Img) : ProcResult :=
  let buffer := C.encodeDefault img
  if (buffer.length : Int) ≤ budget then ProcResult.fastPath buffer
  else
    let r := find_optimal_quality (C.encodeQ img) budget
    if r.1 ≠ -1 then ProcResult.qualityPath r.1 r.2
    else resizeLoop C budget fuel img

/-- process_image (main.py lines 78-131) for a successfully decoded
image: grayscale normalization once, then the size-constrained search.
The byte budget is the global MAX_SIZE_BYTES; fuel bounds the number of
resolution-fallback iterations. -/
def process_image {Img : Type} (C : Codec Img) (budget : Int)
    (fuel : Nat) (img : Img) : ProcResult :=
  processAfterGray C budget fuel (grayNormalize C img)

/-- A configuration source as load_config observes it through
configparser: whether the ini file exists, the value of
Settings/Directory when the section and key are present, the value of
Settings/MaxSizeKB (some (some n) when present and parseable as an
integer, some none when present but not an integer, none when the
section or key is missing), and the os.path.isdir predicate. -/
structure ConfigSource where
  fileExists : Bool
  directoryVal : Option String
  maxSizeKBVal : Option (Option Int)
  isDir : String → Bool

/-- The module-level globals set by load_config (main.py lines 18-20). -/
structure ConfigState where
  TARGET_DIRECTORY : String
  MAX_SIZE_KB : Int
  MAX_SIZE_BYTES : Int
  deriving DecidableEq

/-- Initial values of the globals (main.py lines 18-20). -/
def initConfigState : ConfigState :=
  { TARGET_DIRECTORY := "", MAX_SIZE_KB := 0, MAX_SIZE_BYTES := 0 }

/-- Exceptions load_config can let escape: config.getint raises
ValueError when the value is present but not an integer, and the except
clause at main.py line 46 catches only NoSectionError and NoOptionError. -/
inductive PyExc where
  | valueError
  deriving DecidableEq

/-- load_config (main.py lines 22-50).  Returns the Bool result together
with the globals as mutated; an uncaught exception is the error case.
Assignment order follows the source: TARGET_DIRECTORY is set before
MAX_SIZE_KB is read, and both are set before the isdir check. -/
def load_config (cfg : ConfigSource) (st : ConfigState) :
    Except PyExc (Bool × ConfigState) :=
  if cfg.fileExists = false then Except.ok (false, st)
  else
    match cfg.directoryVal with
    | none => Except.ok (false, st)
    | some d =>
      match cfg.maxSizeKBVal with
      | none =>
        Except.ok (false, { st with TARGET_DIRECTORY := d })
      | some none => Except.error PyExc.valueError
      | some (some kb) =>
        let st2 : ConfigState :=
          { TARGET_DIRECTORY := d, MAX_SIZE_KB := kb, MAX_SIZE_BYTES := kb * 1024 }
        if cfg.isDir d = false then Except.ok (false, st2)
        else Except.ok (true, st2)

/-- Whether the __main__ block (main.py lines 147-148) starts the watch
loop: it does exactly when load_config returns True. -/
def watchLoopStarts (cfg : ConfigSource) : Bool :=
  match load_config cfg initConfigState with
  | Except.ok (true, _) => true
  | _ => false

/-- The failure condition claimed for load_config: missing file, missing
Settings section or Directory/MaxSizeKB key, or non-existent directory. -/
def configFailCond (cfg : ConfigSource) : Prop :=
  cfg.fileExists = false ∨ cfg.directoryVal = none ∨ cfg.maxSizeKBVal = none ∨
    (∃ d, cfg.directoryVal = some d ∧ cfg.isDir d = false)

/-- Concrete monotone test encoder: the buffer at quality q has
min q 60 bytes. -/
def encMin60 : Nat → List Nat := fun q => List.replicate (min q 60) 0

/-- Concrete test image type for witnesses: a pair of dimensions. -/
def DimImg : Type := Nat × Nat

/-- Concrete test codec for witnesses.  Images are their dimensions and
are always in mode L; the default encoding of a w by h image has w * h
bytes and the quality-parameterized encoding has w * h / 10 bytes at
every quality. -/
def tCodec : Codec DimImg where
  width := fun i => i.1
  height := fun i => i.2
  mode := fun _ => "L"
  convertL := fun i => i
  encodeDefault := fun i => List.replicate (i.1 * i.2) 0
  encodeQ := fun i _ => List.replicate (i.1 * i.2 / 10) 0
  resize := fun _ a b => (a, b)

/-- Second concrete test codec, with a nontrivial mode attribute: an
image is grayscale exactly when its first component is 0, and convertL
zeroes that component. -/
def t2Codec : Codec DimImg where
  width := fun i => i.1
  height := fun i => i.2
  mode := fun i => if i.1 = 0 then "L" else "RGB"
  convertL := fun i => (0, i.2)
  encodeDefault := fun i => List.replicate i.2 0
  encodeQ := fun i _ => List.replicate (i.2 / 10) 0
  resize := fun _ a b => (a, b)

/-- The loop body keeps low at least 1 and high at most 95, exits with
low above high whenever the fuel covers the interval size, and the
result does not depend on the exact fuel once it does. -/
theorem fqLoop_exit_lt (enc : Nat → List Nat) (budget : Int) :
    ∀ fuel s, 1 ≤ s.low → s.high + 1 - s.low ≤ fuel →
      (fqLoop enc budget fuel s).high < (fqLoop enc budget fuel s).low := by
  intro fuel
  induction fuel with
  | zero =>
    intro s h1 h2
    simp only [fqLoop]
    omega
  | succ n ih =>
    intro s h1 h2
    simp only [fqLoop]
    by_cases hle : s.low ≤ s.high
    · rw [if_pos hle]
      have hm1 : s.low ≤ (s.low + s.high) / 2 := by omega
      have hm2 : (s.low + s.high) / 2 ≤ s.high := by omega
      by_cases hfit : ((enc ((s.low + s.high) / 2)).length : Int) ≤ budget
      · rw [if_pos hfit]
        refine ih _ ?_ ?_
        · show 1 ≤ (s.low + s.high) / 2 + 1
          omega
        · show s.high + 1 - ((s.low + s.high) / 2 + 1) ≤ n
          omega
      · rw [if_neg hfit]
        refine ih _ ?_ ?_
        · show 1 ≤ s.low
          omega
        · show (s.low + s.high) / 2 - 1 + 1 - s.low ≤ n
          omega
    · rw [if_neg hle]
      omega

/-- The loop result is unchanged by extra fuel once the fuel covers the
interval size: the loop exits by its own condition low > high. -/
theorem fqLoop_fuel_ext (enc : Nat → List Nat) (budget : Int) :
    ∀ fuel fuel2 s, 1 ≤ s.low → s.high + 1 - s.low ≤ fuel → fuel ≤ fuel2 →
      fqLoop enc budget fuel s = fqLoop enc budget fuel2 s := by
  intro fuel
  induction fuel with
  | zero =>
    intro fuel2 s h1 h2 h3
    cases fuel2 with
    | zero => rfl
    | succ m =>
      simp only [fqLoop]
      rw [if_neg (show ¬ s.low ≤ s.high by omega)]
  | succ n ih =>
    intro fuel2 s h1 h2 h3
    cases fuel2 with
    | zero => omega
    | succ m =>
      simp only [fqLoop]
      by_cases hle : s.low ≤ s.high
      · rw [if_pos hle, if_pos hle]
        by_cases hfit : ((enc ((s.low + s.high) / 2)).length : Int) ≤ budget
        · rw [if_pos hfit, if_pos hfit]
          refine ih m _ ?_ ?_ ?_
          · show 1 ≤ (s.low + s.high) / 2 + 1
            omega
          · show s.high + 1 - ((s.low + s.high) / 2 + 1) ≤ n
            omega
          · omega
        · rw [if_neg hfit, if_neg hfit]
          refine ih m _ ?_ ?_ ?_
          · show 1 ≤ s.low
            omega
          · show (s.low + s.high) / 2 - 1 + 1 - s.low ≤ n
            omega
          · omega
      · rw [if_neg hle, if_neg hle]

/-- The best_quality / best_image_bytes invariant is preserved by the
loop, for any fuel. -/
theorem fqLoop_inv (enc : Nat → List Nat) (budget : Int) :
    ∀ fuel s, 1 ≤ s.low → s.high ≤ 95 → FQInv enc budget s →
      FQInv enc budget (fqLoop enc budget fuel s) := by
  intro fuel
  induction fuel with
  | zero =>
    intro s h1 h2 h3
    simpa only [fqLoop] using h3
  | succ n ih =>
    intro s h1 h2 h3
    simp only [fqLoop]
    by_cases hle : s.low ≤ s.high
    · rw [if_pos hle]
      by_cases hfit : ((enc ((s.low + s.high) / 2)).length : Int) ≤ budget
      · rw [if_pos hfit]
        refine ih _ ?_ ?_ ?_
        · show 1 ≤ (s.low + s.high) / 2 + 1
          omega
        · show s.high ≤ 95
          omega
        · unfold FQInv
          exact Or.inr ⟨(s.low + s.high) / 2, rfl, by omega, by omega, rfl, hfit⟩
      · rw [if_neg hfit]
        refine ih _ ?_ ?_ ?_
        · show 1 ≤ s.low
          omega
        · show (s.low + s.high) / 2 - 1 ≤ 95
          omega
        · exact h3
    · rw [if_neg hle]
      exact h3

/-- Every quality value the loop passes to the encoder lies between the
current low and 95, hence in [1, 95]. -/
theorem fqLoop_queries (enc : Nat → List Nat) (budget : Int) :
    ∀ fuel s, 1 ≤ s.low → s.high ≤ 95 →
      (∀ q ∈ s.queries, 1 ≤ q ∧ q ≤ 95) →
      ∀ q ∈ (fqLoop enc budget fuel s).queries, 1 ≤ q ∧ q ≤ 95 := by
  intro fuel
  induction fuel with
  | zero =>
    intro s h1 h2 h3
    simpa only [fqLoop] using h3
  | succ n ih =>
    intro s h1 h2 h3
    simp only [fqLoop]
    by_cases hle : s.low ≤ s.high
    · rw [if_pos hle]
      have hqs : ∀ q ∈ s.queries ++ [(s.low + s.high) / 2], 1 ≤ q ∧ q ≤ 95 := by
        intro q hq
        rcases List.mem_append.1 hq with hq | hq
        · exact h3 q hq
        · have : q = (s.low + s.high) / 2 := List.mem_singleton.1 hq
          subst this
          omega
      by_cases hfit : ((enc ((s.low + s.high) / 2)).length : Int) ≤ budget
      · rw [if_pos hfit]
        refine ih _ ?_ ?_ hqs
        · show 1 ≤ (s.low + s.high) / 2 + 1
          omega
        · show s.high ≤ 95
          omega
      · rw [if_neg hfit]
        refine ih _ ?_ ?_ hqs
        · show 1 ≤ s.low
          omega
        · show (s.low + s.high) / 2 - 1 ≤ 95
          omega
    · rw [if_neg hle]
      exact h3

/-- When no quality in [1, 95] fits the budget, the loop never
overwrites the best fields: every queried quality lies between low and
high, hence in [1, 95]. -/
theorem fqLoop_keep_range (enc : Nat → List Nat) (budget : Int)
    (hno : ∀ q : Nat, 1 ≤ q → q ≤ 95 → budget < ((enc q).length : Int)) :
    ∀ fuel s, 1 ≤ s.low → s.high ≤ 95 →
      (fqLoop enc budget fuel s).best_quality = s.best_quality ∧
      (fqLoop enc budget fuel s).best_image_bytes = s.best_image_bytes := by
  intro fuel
  induction fuel with
  | zero =>
    intro s h1 h2
    exact ⟨rfl, rfl⟩
  | succ n ih =>
    intro s h1 h2
    simp only [fqLoop]
    by_cases hle : s.low ≤ s.high
    · have hmid1 : 1 ≤ (s.low + s.high) / 2 := by omega
      have hmid2 : (s.low + s.high) / 2 ≤ 95 := by omega
      rw [if_pos hle,
        if_neg (not_le.mpr (hno ((s.low + s.high) / 2) hmid1 hmid2))]
      refine ih _ ?_ ?_
      · show 1 ≤ s.low
        omega
      · show (s.low + s.high) / 2 - 1 ≤ 95
        omega
    · rw [if_neg hle]
      exact ⟨rfl, rfl⟩

/-- Encode-count bound: if the interval [low, high] has fewer than 2 ^ k
values, the loop adds at most k entries to queries, i.e. it performs at
most k more encode operations. -/
theorem fqLoop_count (enc : Nat → List Nat) (budget : Int) :
    ∀ fuel k s, 1 ≤ s.low → s.high + 1 - s.low ≤ 2 ^ k - 1 →
      (fqLoop enc budget fuel s).queries.length ≤ s.queries.length + k := by
  intro fuel
  induction fuel with
  | zero =>
    intro k s h1 h2
    simp only [fqLoop]
    omega
  | succ n ih =>
    intro k s h1 h2
    simp only [fqLoop]
    by_cases hle : s.low ≤ s.high
    · rw [if_pos hle]
      cases k with
      | zero =>
        simp only [pow_zero] at h2
        omega
      | succ j =>
        have hp : (2 : Nat) ^ (j + 1) = 2 * 2 ^ j := by ring
        rw [hp] at h2
        have hj1 : (1 : Nat) ≤ 2 ^ j := Nat.one_le_two_pow
        by_cases hfit : ((enc ((s.low + s.high) / 2)).length : Int) ≤ budget
        · rw [if_pos hfit]
          refine le_trans (ih j _ ?_ ?_) ?_
          · show 1 ≤ (s.low + s.high) / 2 + 1
            omega
          · show s.high + 1 - ((s.low + s.high) / 2 + 1) ≤ 2 ^ j - 1
            omega
          · show (s.queries ++ [(s.low + s.high) / 2]).length + j ≤
              s.queries.length + (j + 1)
            rw [List.length_append]
            simp only [List.length_singleton]
            omega
        · rw [if_neg hfit]
          refine le_trans (ih j _ ?_ ?_) ?_
          · show 1 ≤ s.low
            omega
          · show (s.low + s.high) / 2 - 1 + 1 - s.low ≤ 2 ^ j - 1
            omega
          · show (s.queries ++ [(s.low + s.high) / 2]).length + j ≤
              s.queries.length + (j + 1)
            rw [List.length_append]
            simp only [List.length_singleton]
            omega
    · rw [if_neg hle]
      omega

/-- Binary-search invariant under a monotone encoder: every quality above
high does not fit, and every fitting quality below low is at most the
recorded best quality.  Both are preserved to loop exit whenever the fuel
covers the interval size. -/
theorem fqLoop_search (enc : Nat → List Nat) (budget : Int)
    (hmono : ∀ q1 q2 : Nat, q1 ≤ q2 → (enc q1).length ≤ (enc q2).length) :
    ∀ fuel s, 1 ≤ s.low → s.high + 1 - s.low ≤ fuel →
      (∀ q : Nat, s.high < q → q ≤ 95 → ¬ ((enc q).length : Int) ≤ budget) →
      (∀ q : Nat, 1 ≤ q → q < s.low → ((enc q).length : Int) ≤ budget →
        ∃ m : Nat, s.best_quality = (m : Int) ∧ q ≤ m) →
      ((fqLoop enc budget fuel s).high < (fqLoop enc budget fuel s).low) ∧
        (∀ q : Nat, (fqLoop enc budget fuel s).high < q → q ≤ 95 →
          ¬ ((enc q).length : Int) ≤ budget) ∧
        (∀ q : Nat, 1 ≤ q → q < (fqLoop enc budget fuel s).low →
          ((enc q).length : Int) ≤ budget →
          ∃ m : Nat, (fqLoop enc budget fuel s).best_quality = (m : Int) ∧ q ≤ m) := by
  intro fuel
  induction fuel with
  | zero =>
    intro s h1 h2 hA1 hA2
    simp only [fqLoop]
    exact ⟨by omega, hA1, hA2⟩
  | succ n ih =>
    intro s h1 h2 hA1 hA2
    simp only [fqLoop]
    by_cases hle : s.low ≤ s.high
    · rw [if_pos hle]
      by_cases hfit : ((enc ((s.low + s.high) / 2)).length : Int) ≤ budget
      · rw [if_pos hfit]
        refine ih _ ?_ ?_ ?_ ?_
        · show 1 ≤ (s.low + s.high) / 2 + 1
          omega
        · show s.high + 1 - ((s.low + s.high) / 2 + 1) ≤ n
          omega
        · exact hA1
        · show ∀ q : Nat, 1 ≤ q → q < (s.low + s.high) / 2 + 1 →
            ((enc q).length : Int) ≤ budget →
            ∃ m : Nat, ((s.low + s.high) / 2 : Int) = (m : Int) ∧ q ≤ m
          intro q hq1 hq2 _
          exact ⟨(s.low + s.high) / 2, rfl, by omega⟩
      · rw [if_neg hfit]
        refine ih _ ?_ ?_ ?_ ?_
        · show 1 ≤ s.low
          omega
        · show (s.low + s.high) / 2 - 1 + 1 - s.low ≤ n
          omega
        · show ∀ q : Nat, (s.low + s.high) / 2 - 1 < q → q ≤ 95 →
            ¬ ((enc q).length : Int) ≤ budget
          intro q hq1 hq2 hq3
          by_cases hqh : s.high < q
          · exact hA1 q hqh hq2 hq3
          · apply hfit
            have hmq : (enc ((s.low + s.high) / 2)).length ≤ (enc q).length :=
              hmono _ _ (by omega)
            calc ((enc ((s.low + s.high) / 2)).length : Int)
                ≤ ((enc q).length : Int) := by exact_mod_cast hmq
              _ ≤ budget := hq3
        · exact hA2
    · rw [if_neg hle]
      exact ⟨by omega, hA1, hA2⟩

/-- Claim C1: for every encoder and budget such that at least one quality
q in [1, 95] yields an encoded size at most the budget, and assuming the
encoded size is monotonically non-decreasing in the quality,
find_optimal_quality returns the maximum such quality together with the
bytes encoded at that quality. -/
theorem find_optimal_quality_max (enc : Nat → List Nat) (budget : Int)
    (hmono : ∀ q1 q2 : Nat, q1 ≤ q2 → (enc q1).length ≤ (enc q2).length)
    (hex : ∃ q : Nat, 1 ≤ q ∧ q ≤ 95 ∧ ((enc q).length : Int) ≤ budget) :
    ∃ m : Nat, (find_optimal_quality enc budget).1 = (m : Int) ∧
      1 ≤ m ∧ m ≤ 95 ∧ ((enc m).length : Int) ≤ budget ∧
      (find_optimal_quality enc budget).2 = some (enc m) ∧
      ∀ q : Nat, 1 ≤ q → q ≤ 95 → ((enc q).length : Int) ≤ budget → q ≤ m := by
  obtain ⟨q0, hq01, hq095, hq0fit⟩ := hex
  have hs := fqLoop_search enc budget hmono 95 fqInit (by decide) (by decide)
    (by intro q hq1 hq2 hq3; simp only [fqInit] at hq1; omega)
    (by intro q hq1 hq2 hq3; simp only [fqInit] at hq2; omega)
  obtain ⟨hexit, hA1, hA2⟩ := hs
  have hinv := fqLoop_inv enc budget 95 fqInit (by decide) (by decide)
    (Or.inl ⟨rfl, rfl⟩)
  have hq0h : ¬ (fqLoop enc budget 95 fqInit).high < q0 := by
    intro hcase
    exact hA1 q0 hcase hq095 hq0fit
  obtain ⟨m, hm, hq0m⟩ := hA2 q0 hq01 (by omega) hq0fit
  rcases hinv with ⟨hbq, _⟩ | ⟨m2, hm2, h1m, h95m, hbytes, hfitm⟩
  · rw [hm] at hbq
    exact absurd hbq (by omega)
  · refine ⟨m2, ?_, h1m, h95m, hfitm, ?_, ?_⟩
    · show (fqLoop enc budget 95 fqInit).best_quality = (m2 : Int)
      exact hm2
    · show (fqLoop enc budget 95 fqInit).best_image_bytes = some (enc m2)
      exact hbytes
    · intro q hq1 hq95 hqfit
      have hqh : ¬ (fqLoop enc budget 95 fqInit).high < q := by
        intro hcase
        exact hA1 q hcase hq95 hqfit
      obtain ⟨m3, hm3, hq3⟩ := hA2 q hq1 (by omega) hqfit
      have : m3 = m2 := by
        rw [hm2] at hm3
        exact_mod_cast hm3.symm
      omega

/-- Witness for claim C1: for the monotone encoder encMin60 and budget
50, the hypotheses of find_optimal_quality_max hold and its conclusion
is obtained by applying it (the maximum fitting quality is 50). -/
theorem find_optimal_quality_max_witness :
    (∀ q1 q2 : Nat, q1 ≤ q2 → (encMin60 q1).length ≤ (encMin60 q2).length) ∧
    (∃ q : Nat, 1 ≤ q ∧ q ≤ 95 ∧ ((encMin60 q).length : Int) ≤ 50) ∧
    (∃ m : Nat, (find_optimal_quality encMin60 50).1 = (m : Int) ∧
      1 ≤ m ∧ m ≤ 95 ∧ ((encMin60 m).length : Int) ≤ 50 ∧
      (find_optimal_quality encMin60 50).2 = some (encMin60 m) ∧
      ∀ q : Nat, 1 ≤ q → q ≤ 95 → ((encMin60 q).length : Int) ≤ 50 → q ≤ m) := by
  have hmono : ∀ q1 q2 : Nat, q1 ≤ q2 →
      (encMin60 q1).length ≤ (encMin60 q2).length := by
    intro q1 q2 h
    simp only [encMin60, List.length_replicate]
    omega
  have hex : ∃ q : Nat, 1 ≤ q ∧ q ≤ 95 ∧ ((encMin60 q).length : Int) ≤ 50 :=
    ⟨50, by decide, by decide, by decide⟩
  exact ⟨hmono, hex, find_optimal_quality_max encMin60 50 hmono hex⟩

/-- Claim C10: find_optimal_quality returns best_quality -1 exactly when
it returns no bytes; on success the quality is in [1, 95] and the bytes
are the encoder output at that quality, fitting the budget; and every
quality passed to the encoder is in [1, 95]. -/
theorem find_optimal_quality_invariants (enc : Nat → List Nat) (budget : Int) :
    ((find_optimal_quality enc budget).1 = -1 ↔
      (find_optimal_quality enc budget).2 = none) ∧
    ((find_optimal_quality enc budget).1 ≠ -1 →
      ∃ m : Nat, (find_optimal_quality enc budget).1 = (m : Int) ∧
        1 ≤ m ∧ m ≤ 95 ∧
        (find_optimal_quality enc budget).2 = some (enc m) ∧
        ((enc m).length : Int) ≤ budget) ∧
    (∀ q ∈ (fqLoop enc budget 95 fqInit).queries, 1 ≤ q ∧ q ≤ 95) := by
  have hinv := fqLoop_inv enc budget 95 fqInit (by decide) (by decide)
    (Or.inl ⟨rfl, rfl⟩)
  have hqs := fqLoop_queries enc budget 95 fqInit (by decide) (by decide)
    (by intro q hq; simp [fqInit] at hq)
  refine ⟨?_, ?_, hqs⟩
  · show (fqLoop enc budget 95 fqInit).best_quality = -1 ↔
      (fqLoop enc budget 95 fqInit).best_image_bytes = none
    rcases hinv with ⟨h1, h2⟩ | ⟨m, hm, h1m, h95m, hb, hf⟩
    · simp [h1, h2]
    · rw [hm, hb]
      exact ⟨fun h => absurd h (by omega), fun h => (Option.some_ne_none _ h).elim⟩
  · show (fqLoop enc budget 95 fqInit).best_quality ≠ -1 → _
    intro hne
    rcases hinv with ⟨h1, _⟩ | ⟨m, hm, h1m, h95m, hb, hf⟩
    · exact absurd h1 hne
    · exact ⟨m, hm, h1m, h95m, hb, hf⟩

/-- Claim C5: the quality search terminates by its own exit condition
low > high (any fuel from 95 up gives the same final state), and it
performs at most 7 encode operations per invocation. -/
theorem find_optimal_quality_cost (enc : Nat → List Nat) (budget : Int) :
    (fqLoop enc budget 95 fqInit).queries.length ≤ 7 ∧
    (fqLoop enc budget 95 fqInit).high < (fqLoop enc budget 95 fqInit).low ∧
    (∀ fuel : Nat, 95 ≤ fuel →
      fqLoop enc budget fuel fqInit = fqLoop enc budget 95 fqInit) ∧
    find_optimal_quality enc budget =
      ((fqLoop enc budget 95 fqInit).best_quality,
        (fqLoop enc budget 95 fqInit).best_image_bytes) := by
  refine ⟨?_, ?_, ?_, rfl⟩
  · have h := fqLoop_count enc budget 95 7 fqInit (by decide) (by decide)
    simpa [fqInit] using h
  · exact fqLoop_exit_lt enc budget 95 fqInit (by decide) (by decide)
  · intro fuel hf
    exact (fqLoop_fuel_ext enc budget 95 fuel fqInit (by decide) (by decide) hf).symm

/-- Any byte buffer find_optimal_quality returns fits the budget. -/
theorem fq_bytes_le (enc : Nat → List Nat) (budget : Int) (b : List Nat)
    (h : (find_optimal_quality enc budget).2 = some b) :
    (b.length : Int) ≤ budget := by
  have hinv := fqLoop_inv enc budget 95 fqInit (by decide) (by decide)
    (Or.inl ⟨rfl, rfl⟩)
  have h2 : (fqLoop enc budget 95 fqInit).best_image_bytes = some b := h
  rcases hinv with ⟨_, hb⟩ | ⟨m, _, _, _, hb, hf⟩
  · rw [hb] at h2
    cases h2
  · rw [hb] at h2
    injection h2 with h3
    subst h3
    exact hf

/-- Any byte buffer the resolution-fallback loop writes fits the budget. -/
theorem resizeLoop_written {Img : Type} (C : Codec Img) (budget : Int) :
    ∀ fuel img b, writtenBytes (resizeLoop C budget fuel img) = some b →
      (b.length : Int) ≤ budget := by
  intro fuel
  induction fuel with
  | zero =>
    intro img b h
    simp [resizeLoop, writtenBytes] at h
  | succ n ih =>
    intro img b h
    simp only [resizeLoop] at h
    by_cases hdim : 9 * C.width img / 10 < 10 ∨ 9 * C.height img / 10 < 10
    · rw [if_pos hdim] at h
      simp [writtenBytes] at h
    · rw [if_neg hdim] at h
      by_cases hq : (find_optimal_quality
          (C.encodeQ (C.resize img (9 * C.width img / 10)
            (9 * C.height img / 10))) budget).1 ≠ -1
      · rw [if_pos hq] at h
        simp only [writtenBytes] at h
        exact fq_bytes_le _ budget b h
      · rw [if_neg hq] at h
        exact ih _ b h

/-- Claim C2: every byte buffer process_image writes to the watched file
fits the budget, on the fast path, the full-resolution search path, and
every resolution-fallback path. -/
theorem process_image_written_le {Img : Type} (C : Codec Img) (budget : Int)
    (fuel : Nat) (img : Img) (b : List Nat)
    (h : writtenBytes (process_image C budget fuel img) = some b) :
    (b.length : Int) ≤ budget := by
  simp only [process_image, processAfterGray] at h
  by_cases hfast : ((C.encodeDefault (grayNormalize C img)).length : Int) ≤ budget
  · rw [if_pos hfast] at h
    simp only [writtenBytes] at h
    injection h with h2
    subst h2
    exact hfast
  · rw [if_neg hfast] at h
    by_cases hq : (find_optimal_quality (C.encodeQ (grayNormalize C img)) budget).1 ≠ -1
    · rw [if_pos hq] at h
      simp only [writtenBytes] at h
      exact fq_bytes_le _ budget b h
    · rw [if_neg hq] at h
      exact resizeLoop_written C budget fuel _ b h

/-- Witness for claim C2: with the concrete codec tCodec, a 1 by 3 image
and budget 5, process_image writes 3 bytes and 3 is at most 5. -/
theorem process_image_written_le_witness :
    writtenBytes (process_image tCodec 5 3 ((1, 3) : DimImg)) =
      some (List.replicate 3 0) ∧
    ((List.replicate 3 (0 : Nat)).length : Int) ≤ 5 := by
  refine ⟨by decide, ?_⟩
  exact process_image_written_le tCodec 5 3 ((1, 3) : DimImg)
    (List.replicate 3 0) (by decide)

/-- Fast path of the pipeline: when the default encoding of the
normalized image fits, that buffer is the result. -/
theorem processAfterGray_fast {Img : Type} (C : Codec Img) (budget : Int)
    (fuel : Nat) (img : Img)
    (h : ((C.encodeDefault img).length : Int) ≤ budget) :
    processAfterGray C budget fuel img =
      ProcResult.fastPath (C.encodeDefault img) := by
  simp only [processAfterGray]
  rw [if_pos h]

/-- Claim C4: if the grayscale image encoded at the default settings
already fits the budget, process_image yields exactly those bytes,
writes them, and the result does not depend on the quality encoder at
all (the quality search is never invoked). -/
theorem process_image_fast_path {Img : Type} (C : Codec Img) (budget : Int)
    (fuel : Nat) (img : Img)
    (h : ((C.encodeDefault (grayNormalize C img)).length : Int) ≤ budget) :
    process_image C budget fuel img =
      ProcResult.fastPath (C.encodeDefault (grayNormalize C img)) ∧
    writtenBytes (process_image C budget fuel img) =
      some (C.encodeDefault (grayNormalize C img)) ∧
    (∀ encq : Img → Nat → List Nat,
      process_image { C with encodeQ := encq } budget fuel img =
        ProcResult.fastPath (C.encodeDefault (grayNormalize C img))) := by
  have h1 := processAfterGray_fast C budget fuel (grayNormalize C img) h
  refine ⟨h1, ?_, ?_⟩
  · show writtenBytes (processAfterGray C budget fuel (grayNormalize C img)) = _
    rw [h1]
    rfl
  · intro encq
    exact processAfterGray_fast { C with encodeQ := encq } budget fuel
      (grayNormalize { C with encodeQ := encq } img) h

/-- Witness for claim C4: with tCodec, a 1 by 3 image and budget 5, the
default encoding has 3 bytes, fits, and is returned via the fast path. -/
theorem process_image_fast_path_witness :
    (((tCodec.encodeDefault (grayNormalize tCodec ((1, 3) : DimImg))).length : Int) ≤ 5) ∧
    process_image tCodec 5 7 ((1, 3) : DimImg) =
      ProcResult.fastPath (tCodec.encodeDefault (grayNormalize tCodec ((1, 3) : DimImg))) := by
  refine ⟨by decide, ?_⟩
  exact (process_image_fast_path tCodec 5 7 ((1, 3) : DimImg) (by decide)).1

/-- The resolution-fallback loop only reads width, height, encodeQ and
resize from the codec. -/
theorem resizeLoop_congr {Img : Type} (C1 C2 : Codec Img) (budget : Int)
    (hw : C1.width = C2.width) (hh : C1.height = C2.height)
    (he : C1.encodeQ = C2.encodeQ) (hr : C1.resize = C2.resize) :
    ∀ fuel img, resizeLoop C1 budget fuel img = resizeLoop C2 budget fuel img := by
  intro fuel
  induction fuel with
  | zero =>
    intro img
    rfl
  | succ n ih =>
    intro img
    simp only [resizeLoop, hw, hh, he, hr, ih]

/-- Claim C7: grayscale normalization leaves an already-grayscale image
unchanged, converts exactly when the mode is not L, is idempotent when
conversion produces mode L, happens once before the whole search (the
pipeline factors through it), and the search stages never use the mode
or convert operations again. -/
theorem grayNormalize_props {Img : Type} (C : Codec Img) (budget : Int)
    (fuel : Nat) (img : Img) :
    (C.mode img = "L" → grayNormalize C img = img) ∧
    (C.mode img ≠ "L" → grayNormalize C img = C.convertL img) ∧
    ((∀ i : Img, C.mode (C.convertL i) = "L") →
      grayNormalize C (grayNormalize C img) = grayNormalize C img) ∧
    process_image C budget fuel img =
      processAfterGray C budget fuel (grayNormalize C img) ∧
    (∀ cv : Img → Img, ∀ md : Img → String,
      processAfterGray { C with convertL := cv, mode := md } budget fuel
          (grayNormalize C img) =
        processAfterGray C budget fuel (grayNormalize C img)) := by
  refine ⟨?_, ?_, ?_, rfl, ?_⟩
  · intro h
    unfold grayNormalize
    rw [if_neg (not_not_intro h)]
  · intro h
    unfold grayNormalize
    rw [if_pos h]
  · intro hlaw
    by_cases h : C.mode img ≠ "L"
    · have h1 : grayNormalize C img = C.convertL img := by
        unfold grayNormalize
        rw [if_pos h]
      rw [h1]
      unfold grayNormalize
      rw [if_neg (not_not_intro (hlaw img))]
    · have h1 : grayNormalize C img = img := by
        unfold grayNormalize
        rw [if_neg h]
      rw [h1]
      exact h1
  · intro cv md
    have h := resizeLoop_congr { C with convertL := cv, mode := md } C budget
      rfl rfl rfl rfl
    simp only [processAfterGray, h]

/-- Shifting the base image by one shrink step shifts the level index. -/
theorem imgAt_shift {Img : Type} (C : Codec Img) (img : Img) :
    ∀ j, imgAt C (shrinkStep C img) j = imgAt C img (j + 1) := by
  intro j
  induction j with
  | zero => rfl
  | succ j ih => simp only [imgAt, ih]

/-- The fallback loop tries resolution levels in order; if levels 1..k
yield no fitting quality, no shrunk dimension falls below 10 through
level k, and level k + 1 yields a fit, the loop returns the level k + 1
result immediately. -/
theorem resizeLoop_first_fit {Img : Type} (C : Codec Img) (budget : Int) :
    ∀ k fuel img,
      (∀ j : Nat, 1 ≤ j → j ≤ k →
        (find_optimal_quality (C.encodeQ (imgAt C img j)) budget).1 = -1) →
      (∀ j : Nat, j ≤ k →
        10 ≤ 9 * C.width (imgAt C img j) / 10 ∧
        10 ≤ 9 * C.height (imgAt C img j) / 10) →
      (find_optimal_quality (C.encodeQ (imgAt C img (k + 1))) budget).1 ≠ -1 →
      k < fuel →
      resizeLoop C budget fuel img =
        ProcResult.resizePath (9 * C.width (imgAt C img k) / 10)
          (9 * C.height (imgAt C img k) / 10)
          (find_optimal_quality (C.encodeQ (imgAt C img (k + 1))) budget).1
          (find_optimal_quality (C.encodeQ (imgAt C img (k + 1))) budget).2 := by
  intro k
  induction k with
  | zero =>
    intro fuel img hno hdims hfit hfuel
    cases fuel with
    | zero => omega
    | succ n =>
      simp only [resizeLoop]
      have hd0 := hdims 0 (Nat.zero_le _)
      simp only [imgAt] at hd0
      rw [if_neg (not_or.mpr ⟨by omega, by omega⟩)]
      have hfit1 : (find_optimal_quality
          (C.encodeQ (C.resize img (9 * C.width img / 10)
            (9 * C.height img / 10))) budget).1 ≠ -1 := hfit
      rw [if_pos hfit1]
      rfl
  | succ k ih =>
    intro fuel img hno hdims hfit hfuel
    cases fuel with
    | zero => omega
    | succ n =>
      simp only [resizeLoop]
      have hd0 := hdims 0 (Nat.zero_le _)
      simp only [imgAt] at hd0
      rw [if_neg (not_or.mpr ⟨by omega, by omega⟩)]
      have hno1 : (find_optimal_quality
          (C.encodeQ (C.resize img (9 * C.width img / 10)
            (9 * C.height img / 10))) budget).1 = -1 :=
        hno 1 (le_refl 1) (by omega)
      rw [if_neg (not_not_intro hno1)]
      show resizeLoop C budget n (shrinkStep C img) = _
      have hgoal := ih n (shrinkStep C img)
        (by
          intro j hj1 hj2
          rw [imgAt_shift C img j]
          exact hno (j + 1) (by omega) (by omega))
        (by
          intro j hj
          rw [imgAt_shift C img j]
          exact hdims (j + 1) (by omega))
        (by
          rw [imgAt_shift C img (k + 1)]
          exact hfit)
        (by omega)
      rw [hgoal, imgAt_shift C img k, imgAt_shift C img (k + 1)]

/-- Claim C6: when no quality in [1, 95] fits at the current resolution,
both dimensions shrink to floor(0.9 times the old value), the search is
repeated level by level, and the first level with a fitting quality is
returned immediately with no further shrinking. -/
theorem process_image_resolution_fallback {Img : Type} (C : Codec Img)
    (budget : Int) (fuel : Nat) (img : Img) (k : Nat)
    (hw : ∀ i : Img, ∀ a b : Nat, C.width (C.resize i a b) = a)
    (hh : ∀ i : Img, ∀ a b : Nat, C.height (C.resize i a b) = b)
    (hdef : budget < ((C.encodeDefault (grayNormalize C img)).length : Int))
    (hno : ∀ j : Nat, j ≤ k →
      (find_optimal_quality
        (C.encodeQ (imgAt C (grayNormalize C img) j)) budget).1 = -1)
    (hdims : ∀ j : Nat, j ≤ k →
      10 ≤ 9 * C.width (imgAt C (grayNormalize C img) j) / 10 ∧
      10 ≤ 9 * C.height (imgAt C (grayNormalize C img) j) / 10)
    (hfit : (find_optimal_quality
      (C.encodeQ (imgAt C (grayNormalize C img) (k + 1))) budget).1 ≠ -1)
    (hfuel : k < fuel) :
    process_image C budget fuel img =
      ProcResult.resizePath
        (9 * C.width (imgAt C (grayNormalize C img) k) / 10)
        (9 * C.height (imgAt C (grayNormalize C img) k) / 10)
        (find_optimal_quality
          (C.encodeQ (imgAt C (grayNormalize C img) (k + 1))) budget).1
        (find_optimal_quality
          (C.encodeQ (imgAt C (grayNormalize C img) (k + 1))) budget).2 ∧
    (∀ j : Nat,
      C.width (imgAt C (grayNormalize C img) (j + 1)) =
        9 * C.width (imgAt C (grayNormalize C img) j) / 10 ∧
      C.height (imgAt C (grayNormalize C img) (j + 1)) =
        9 * C.height (imgAt C (grayNormalize C img) j) / 10) := by
  constructor
  · simp only [process_image, processAfterGray]
    rw [if_neg (not_le.mpr hdef)]
    have h0 : (find_optimal_quality
        (C.encodeQ (grayNormalize C img)) budget).1 = -1 :=
      hno 0 (Nat.zero_le _)
    rw [if_neg (not_not_intro h0)]
    exact resizeLoop_first_fit C budget k fuel (grayNormalize C img)
      (fun j hj1 hj2 => hno j (by omega)) hdims hfit hfuel
  · intro j
    simp only [imgAt, shrinkStep]
    exact ⟨hw _ _ _, hh _ _ _⟩

/-- Witness for claim C6: with tCodec, a 20 by 20 image and budget 35,
no quality fits at 20 by 20 (40 bytes each), the first shrink gives
18 by 18 (floor of 0.9 times 20), every quality fits there (32 bytes),
and process_image returns that first fitting level. -/
theorem process_image_resolution_fallback_witness :
    process_image tCodec 35 1 ((20, 20) : DimImg) =
      ProcResult.resizePath 18 18 95 (some (List.replicate 32 0)) := by
  have h := process_image_resolution_fallback tCodec 35 1 ((20, 20) : DimImg) 0
    (by intro i a b; rfl)
    (by intro i a b; rfl)
    (by decide)
    (by
      intro j hj
      have hj0 : j = 0 := by omega
      subst hj0
      decide)
    (by
      intro j hj
      have hj0 : j = 0 := by omega
      subst hj0
      exact ⟨by decide, by decide⟩)
    (by decide)
    (by omega)
  exact h.1.trans (by decide)

/-- Counterexample for claim C8 as stated: a configuration whose file,
Settings section, Directory and MaxSizeKB keys are all present and whose
directory exists, so none of the claimed failure conditions hold, yet
load_config neither returns True nor False: the MaxSizeKB value is not
an integer, config.getint raises ValueError, and the except clause at
main.py line 46 does not catch it.  The watch loop still does not start,
but by an uncaught exception rather than a False return. -/
theorem load_config_claim_counterexample :
    load_config ⟨true, some "d", some none, fun _ => true⟩ initConfigState =
      Except.error PyExc.valueError ∧
    ¬ configFailCond ⟨true, some "d", some none, fun _ => true⟩ ∧
    watchLoopStarts ⟨true, some "d", some none, fun _ => true⟩ = false := by
  refine ⟨rfl, ?_, rfl⟩
  intro h
  rcases h with h | h | h | ⟨d, hd, hdir⟩
  · exact Bool.noConfusion h
  · exact Option.noConfusion h
  · exact Option.noConfusion h
  · exact Bool.noConfusion hdir

/-- Amended claim C8: load_config returns False iff the file is missing,
the Directory key (or its section) is missing, the MaxSizeKB key is
missing, or everything is present with an integer MaxSizeKB and the
directory does not exist; it returns True (and only then the watch loop
starts) iff the file and both keys are present, MaxSizeKB parses as an
integer and the directory exists; and it raises an uncaught ValueError
iff the file and the Directory key are present but MaxSizeKB does not
parse as an integer. -/
theorem load_config_characterization (cfg : ConfigSource) (st : ConfigState) :
    ((∃ st2, load_config cfg st = Except.ok (false, st2)) ↔
      (cfg.fileExists = false ∨ cfg.directoryVal = none ∨
        cfg.maxSizeKBVal = none ∨
        (∃ d kb, cfg.directoryVal = some d ∧
          cfg.maxSizeKBVal = some (some kb) ∧ cfg.isDir d = false))) ∧
    ((∃ st2, load_config cfg st = Except.ok (true, st2)) ↔
      (cfg.fileExists = true ∧ ∃ d kb, cfg.directoryVal = some d ∧
        cfg.maxSizeKBVal = some (some kb) ∧ cfg.isDir d = true)) ∧
    (load_config cfg st = Except.error PyExc.valueError ↔
      (cfg.fileExists = true ∧ cfg.directoryVal ≠ none ∧
        cfg.maxSizeKBVal = some none)) ∧
    (watchLoopStarts cfg = true ↔
      (cfg.fileExists = true ∧ ∃ d kb, cfg.directoryVal = some d ∧
        cfg.maxSizeKBVal = some (some kb) ∧ cfg.isDir d = true)) := by
  obtain ⟨fe, dv, kv, isd⟩ := cfg
  cases fe
  · simp [load_config, watchLoopStarts]
  · cases dv with
    | none => simp [load_config, watchLoopStarts]
    | some d =>
      cases kv with
      | none => simp [load_config, watchLoopStarts]
      | some kvv =>
        cases kvv with
        | none => simp [load_config, watchLoopStarts]
        | some kb =>
          cases hd : isd d with
          | false => simp [load_config, watchLoopStarts, hd]
          | true => simp [load_config, watchLoopStarts, hd]

/-- Claim C9: load_config performs no positivity check on MaxSizeKB:
for every integer value, including zero and negative values, it returns
True (when file, keys and directory exist) and the watch loop starts
with byte budget MaxSizeKB * 1024, possibly non-positive. -/
theorem load_config_no_positivity (kb : Int) (d : String) (isd : String → Bool)
    (st : ConfigState) (hd : isd d = true) :
    load_config ⟨true, some d, some (some kb), isd⟩ st =
      Except.ok (true, ⟨d, kb, kb * 1024⟩) ∧
    watchLoopStarts ⟨true, some d, some (some kb), isd⟩ = true := by
  constructor
  · simp [load_config, hd]
  · simp [watchLoopStarts, load_config, hd]

/-- Witness for claim C9: MaxSizeKB = -3 is accepted and produces the
non-positive byte budget -3072. -/
theorem load_config_no_positivity_witness :
    load_config ⟨true, some "d", some (some (-3)), fun _ => true⟩ initConfigState =
      Except.ok (true, ⟨"d", -3, -3072⟩) := by
  have h := load_config_no_positivity (-3) "d" (fun _ => true) initConfigState rfl
  rw [show ((-3 : Int) * 1024) = -3072 by norm_num] at h
  exact h.1

/-- When no quality in [1, 95] fits, the search returns -1 and no bytes. -/
theorem find_optimal_quality_fail_range (enc : Nat → List Nat) (budget : Int)
    (hno : ∀ q : Nat, 1 ≤ q → q ≤ 95 → budget < ((enc q).length : Int)) :
    (find_optimal_quality enc budget).1 = -1 ∧
    (find_optimal_quality enc budget).2 = none := by
  have h := fqLoop_keep_range enc budget hno 95 fqInit (by decide) (by decide)
  exact ⟨h.1, h.2⟩

/-- If no quality in [1, 95] fits at any of the shrunk resolution levels
1..K actually tried, levels 0..K-1 pass the 10-pixel floor check, and at
level K a shrunk dimension would fall below 10, then the fallback loop
stops with failure. -/
theorem resizeLoop_exhaust {Img : Type} (C : Codec Img) (budget : Int) :
    ∀ K fuel img,
      (∀ j : Nat, 1 ≤ j → j ≤ K → ∀ q : Nat, 1 ≤ q → q ≤ 95 →
        budget < ((C.encodeQ (imgAt C img j) q).length : Int)) →
      (∀ j : Nat, j < K →
        10 ≤ 9 * C.width (imgAt C img j) / 10 ∧
        10 ≤ 9 * C.height (imgAt C img j) / 10) →
      (9 * C.width (imgAt C img K) / 10 < 10 ∨
        9 * C.height (imgAt C img K) / 10 < 10) →
      K < fuel →
      resizeLoop C budget fuel img = ProcResult.cannotSatisfy := by
  intro K
  induction K with
  | zero =>
    intro fuel img hno hdims hstop hfuel
    cases fuel with
    | zero => omega
    | succ n =>
      simp only [imgAt] at hstop
      simp only [resizeLoop]
      rw [if_pos hstop]
  | succ K ih =>
    intro fuel img hno hdims hstop hfuel
    cases fuel with
    | zero => omega
    | succ n =>
      simp only [resizeLoop]
      have hd0 := hdims 0 (Nat.succ_pos K)
      simp only [imgAt] at hd0
      rw [if_neg (not_or.mpr ⟨by omega, by omega⟩)]
      have hno1 : (find_optimal_quality
          (C.encodeQ (C.resize img (9 * C.width img / 10)
            (9 * C.height img / 10))) budget).1 = -1 :=
        (find_optimal_quality_fail_range _ budget
          (hno 1 (le_refl 1) (by omega))).1
      rw [if_neg (not_not_intro hno1)]
      show resizeLoop C budget n (shrinkStep C img) = _
      refine ih n (shrinkStep C img) ?_ ?_ ?_ (by omega)
      · intro j hj1 hj2
        rw [imgAt_shift C img j]
        exact hno (j + 1) (by omega) (by omega)
      · intro j hj
        rw [imgAt_shift C img j]
        exact hdims (j + 1) (by omega)
      · rw [imgAt_shift C img K]
        exact hstop

/-- Claim C3: if the default encoding of the grayscale image exceeds the
budget and no quality in [1, 95] fits at the full resolution (level 0)
or at any of the shrunk resolutions actually tried (levels 1..K, where
the shrink at level K is the first whose result would fall below 10
pixels in either axis), then process_image reports failure (cannot
satisfy budget) without performing any write, so the file on disk stays
byte-for-byte unchanged. -/
theorem process_image_cannot_satisfy {Img : Type} (C : Codec Img)
    (budget : Int) (fuel : Nat) (img : Img) (orig : List Nat) (K : Nat)
    (hdef : budget < ((C.encodeDefault (grayNormalize C img)).length : Int))
    (hno : ∀ j : Nat, j ≤ K → ∀ q : Nat, 1 ≤ q → q ≤ 95 →
      budget < ((C.encodeQ (imgAt C (grayNormalize C img) j) q).length : Int))
    (hdims : ∀ j : Nat, j < K →
      10 ≤ 9 * C.width (imgAt C (grayNormalize C img) j) / 10 ∧
      10 ≤ 9 * C.height (imgAt C (grayNormalize C img) j) / 10)
    (hstop : 9 * C.width (imgAt C (grayNormalize C img) K) / 10 < 10 ∨
      9 * C.height (imgAt C (grayNormalize C img) K) / 10 < 10)
    (hfuel : K < fuel) :
    process_image C budget fuel img = ProcResult.cannotSatisfy ∧
    writtenBytes (process_image C budget fuel img) = none ∧
    diskAfter orig (process_image C budget fuel img) = orig := by
  have h1 : process_image C budget fuel img = ProcResult.cannotSatisfy := by
    simp only [process_image, processAfterGray]
    rw [if_neg (not_le.mpr hdef)]
    have hfail := find_optimal_quality_fail_range
      (C.encodeQ (grayNormalize C img)) budget
      (fun q hq1 hq2 => hno 0 (Nat.zero_le _) q hq1 hq2)
    rw [if_neg (not_not_intro hfail.1)]
    exact resizeLoop_exhaust C budget K fuel (grayNormalize C img)
      (fun j hj1 hj2 => hno j (by omega)) hdims hstop hfuel
  refine ⟨h1, ?_, ?_⟩
  · rw [h1]
    rfl
  · rw [h1]
    rfl

/-- Witness for claim C3: with tCodec, budget 5 and a 20 by 20 image,
the tried resolutions are 20, 18, 16, 14, 12, 10 on each axis with
quality-encode sizes 40, 32, 25, 19, 14, 10 bytes, all over budget; the
shrink after 10 by 10 would give 9 < 10, so process_image reports
failure and the original file contents survive unchanged. -/
theorem process_image_cannot_satisfy_witness :
    process_image tCodec 5 6 ((20, 20) : DimImg) = ProcResult.cannotSatisfy ∧
    diskAfter [7, 7, 7] (process_image tCodec 5 6 ((20, 20) : DimImg)) = [7, 7, 7] := by
  have h := process_image_cannot_satisfy tCodec 5 6 ((20, 20) : DimImg) [7, 7, 7] 5
    (by decide)
    (by
      intro j hj q hq1 hq2
      interval_cases j
      · show (5 : Int) < ((List.replicate 40 (0 : Nat)).length : Int)
        decide
      · show (5 : Int) < ((List.replicate 32 (0 : Nat)).length : Int)
        decide
      · show (5 : Int) < ((List.replicate 25 (0 : Nat)).length : Int)
        decide
      · show (5 : Int) < ((List.replicate 19 (0 : Nat)).length : Int)
        decide
      · show (5 : Int) < ((List.replicate 14 (0 : Nat)).length : Int)
        decide
      · show (5 : Int) < ((List.replicate 10 (0 : Nat)).length : Int)
        decide)
    (by
      intro j hj
      interval_cases j <;> decide)
    (by decide)
    (by omega)
  exact ⟨h.1, h.2.2⟩
